import Mathlib

/-!
Verification of the planning/execution core of `file_renamer.py`
(RegexFileRenamerGUI).  Filenames and paths are modelled as lists of
characters (`Str`).  The Python `re` engine is abstracted: regex-based
presets take the engine's `search`/`sub` behaviour as parameters, while
the two text presets (whose pattern is produced by `re.escape`) are
modelled with concrete literal-matching semantics.
-/

namespace FileRenamer

/-! ## Definitions: the shallow embedding of the planning and execution logic -/

/-- Filenames and paths, as Python strings (sequences of characters). -/
abbrev Str := List Char

/-- The character class `ILLEGAL_CHARS_WIN = r'[<>:"/\\|?*]'`. -/
def illegalChars : List Char := ['<', '>', ':', '"', '/', '\\', '|', '?', '*']

/-- Model of `is_valid_filename`: `not re.search(self.ILLEGAL_CHARS_WIN, filename)`,
i.e. no character of the filename belongs to the illegal class. -/
def is_valid_filename (f : Str) : Bool :=
  !(f.any (fun c => decide (c ∈ illegalChars)))

/-- Model of `os.path.basename` for POSIX paths: the part after the last `/`. -/
def basename (p : Str) : Str :=
  (p.reverse.takeWhile (fun c => c ≠ '/')).reverse

/-- Model of `os.path.dirname` for POSIX paths: the head `p[:rfind('/')+1]`, with
trailing slashes stripped unless the head consists only of slashes. -/
def dirname (p : Str) : Str :=
  let head := (p.reverse.dropWhile (fun c => c ≠ '/')).reverse
  if head.all (fun c => c = '/') then head
  else (head.reverse.dropWhile (fun c => c = '/')).reverse

/-- Model of `os.path.join(d, f)` for POSIX paths, for a two-argument call. -/
def joinPath (d f : Str) : Str :=
  if f.head? = some '/' then f
  else if d = [] then f
  else if d.getLast? = some '/' then d ++ f
  else d ++ '/' :: f

/-- One planned change `(full_path, old_name, new_name)`. -/
structure Change where
  full_path : Str
  old_name : Str
  new_name : Str
deriving DecidableEq

/-- The target path a change claims:
`os.path.join(os.path.dirname(full_path), new_name)`. -/
def targetPath (c : Change) : Str :=
  joinPath (dirname c.full_path) c.new_name

/-- Insertion-ordered string-keyed dictionary of lists of old names. -/
abbrev CollMap := List (Str × List Str)

/-- Dictionary lookup (`new_names[key]` when present). -/
def dictFind : CollMap → Str → Option (List Str)
  | [], _ => none
  | (k2, vs) :: rest, k => if k2 = k then some vs else dictFind rest k

/-- The dict update of `detect_collisions` (create the key's list if absent,
then append `old_name`), keeping Python's insertion order. -/
def addName (m : CollMap) (k : Str) (old : Str) : CollMap :=
  match m with
  | [] => [(k, [old])]
  | (k2, vs) :: rest =>
      if k2 = k then (k2, vs ++ [old]) :: rest
      else (k2, vs) :: addName rest k old

/-- The `new_names` dict built by the first loop of `detect_collisions`. -/
def buildNewNames (changes : List Change) : CollMap :=
  changes.foldl (fun m c => addName m (targetPath c) c.old_name) []

/-- Model of `detect_collisions`: keep only targets claimed by more than one file. -/
def detect_collisions (changes : List Change) : CollMap :=
  (buildNewNames changes).filter (fun p => p.2.length > 1)

/-- Specification-side: old names of all the triples claiming target `k`,
in input order. -/
def oldsFor (changes : List Change) (k : Str) : List Str :=
  (changes.filter (fun c => targetPath c = k)).map (fun c => c.old_name)

/-- Model of `apply_regex(files, pattern, replacement, flags)` with the behaviour of
`re.search(pattern, ·, flags)` and `re.sub(pattern, replacement, ·, flags)`
supplied as the functions `search` and `sub`. -/
def apply_regex (search : Str → Bool) (sub : Str → Str) : List Str → List Change
  | [] => []
  | fp :: rest =>
      let old := basename fp
      if search old then
        let new := sub old
        if is_valid_filename new then
          if new ≠ old then ⟨fp, old, new⟩ :: apply_regex search sub rest
          else apply_regex search sub rest
        else apply_regex search sub rest
      else apply_regex search sub rest

/-- Lexicographic order on strings by code point (Python `str` `<=`). -/
def lexLe : Str → Str → Bool
  | [], _ => true
  | _ :: _, [] => false
  | a :: as, b :: bs => if a < b then true else if b < a then false else lexLe as bs

/-- Insert into a sorted list (the sorting used to model Python `sorted`). -/
def insertLe (x : Str) : List Str → List Str
  | [] => [x]
  | y :: ys => if lexLe x y then x :: y :: ys else y :: insertLe x ys

/-- Insertion sort modelling Python `sorted` (a sorted permutation). -/
def sortStr : List Str → List Str
  | [] => []
  | x :: xs => insertLe x (sortStr xs)

set_option linter.unusedVariables false in

/-- Model of `collect_files(dir_path, recursive)`: the `os.listdir` result and the
`os.path.isfile` predicate are supplied as parameters; the function keeps
the listing entries whose full path is a regular file and sorts the full
paths.  The `recursive` parameter is never read, as in the source. -/
def collect_files (dirPath : Str) (listing : List Str) (isFile : Str → Bool)
    (recursive : Bool) : List Str :=
  sortStr (listing.filterMap (fun name =>
    let full := joinPath dirPath name
    if isFile full then some full else none))

/-- The ASCII case-mapping table (`lower`, `upper`) pairs. -/
def asciiUpperMap : List (Char × Char) :=
  [('a','A'),('b','B'),('c','C'),('d','D'),('e','E'),('f','F'),('g','G'),
   ('h','H'),('i','I'),('j','J'),('k','K'),('l','L'),('m','M'),('n','N'),
   ('o','O'),('p','P'),('q','Q'),('r','R'),('s','S'),('t','T'),('u','U'),
   ('v','V'),('w','W'),('x','X'),('y','Y'),('z','Z')]

/-- Python `str.upper` on one character (ASCII). -/
def pyToUpper (c : Char) : Char :=
  match asciiUpperMap.find? (fun p => p.1 == c) with
  | some p => p.2
  | none => c

/-- Python `str.lower` on one character (ASCII). -/
def pyToLower (c : Char) : Char :=
  match asciiUpperMap.find? (fun p => p.2 == c) with
  | some p => p.1
  | none => c

/-- ASCII whitespace, the separator class of no-argument `str.split`. -/
def pyIsSpace (c : Char) : Bool :=
  [' ', '\t', '\n', '\x0b', '\x0c', '\r'].contains c

/-- Worker for `pySplit`: `acc` holds the current word reversed. -/
def pySplitAux : Str → Str → List Str
  | [], acc => if acc.isEmpty then [] else [acc.reverse]
  | c :: cs, acc =>
      if pyIsSpace c then
        if acc.isEmpty then pySplitAux cs [] else acc.reverse :: pySplitAux cs []
      else pySplitAux cs (c :: acc)

/-- Python no-argument `str.split`: maximal runs of non-whitespace. -/
def pySplit (s : Str) : List Str := pySplitAux s []

/-- Python `str.capitalize`: first character upper-cased, rest lower-cased. -/
def pyCapitalize : Str → Str
  | [] => []
  | c :: cs => pyToUpper c :: cs.map pyToLower

/-- Python `" ".join`. -/
def joinSp : List Str → Str
  | [] => []
  | [w] => w
  | w :: ws => w ++ ' ' :: joinSp ws

/-- The Camel Case stem transform:
`" ".join(part.capitalize() for part in name.split())`. -/
def camelize (n : Str) : Str := joinSp ((pySplit n).map pyCapitalize)

/-- Not the extension separator. -/
def notDot (c : Char) : Bool := c != '.'

/-- Model of `os.path.splitext` for names not containing a path separator: split at
the last dot, unless every character before that dot is itself a dot (then
there is no extension). -/
def splitext (name : Str) : Str × Str :=
  match name.reverse.dropWhile notDot with
  | [] => (name, [])
  | d :: preRev =>
      if preRev.any notDot then
        (preRev.reverse, d :: (name.reverse.takeWhile notDot).reverse)
      else (name, [])

/-- The three case-conversion modes of `preview_changes`. -/
inductive CaseMode
  | upper
  | lower
  | camel
deriving DecidableEq

/-- The new name computed in the case-conversion branch of
`preview_changes` (lines 585–596): `name, ext = os.path.splitext(old_name)`,
transform the stem, and reattach the extension. -/
def caseNewName (mode : CaseMode) (old : Str) : Str :=
  (match mode with
   | .upper => (splitext old).1.map pyToUpper
   | .lower => (splitext old).1.map pyToLower
   | .camel => camelize (splitext old).1) ++ (splitext old).2

/-- Specification-side stem transform ("the transformed stem"). -/
def caseStem (mode : CaseMode) (stem : Str) : Str :=
  match mode with
  | .upper => stem.map pyToUpper
  | .lower => stem.map pyToLower
  | .camel => camelize stem

/-- The plan built by the case-conversion branch of `preview_changes`:
every file whose transformed basename differs from the original. -/
def caseChanges (mode : CaseMode) : List Str → List Change
  | [] => []
  | fp :: rest =>
      if caseNewName mode (basename fp) ≠ basename fp then
        ⟨fp, basename fp, caseNewName mode (basename fp)⟩ :: caseChanges mode rest
      else caseChanges mode rest

/-- Specification-side: the naive split of a filename at its last dot, the
spec's words "splitting at the last dot" taken literally. -/
def splitAtLastDotNaive (name : Str) : Str × Str :=
  match name.reverse.dropWhile notDot with
  | [] => (name, [])
  | d :: preRev => (preRev.reverse, d :: (name.reverse.takeWhile notDot).reverse)

/-- The keys of the dictionary, in insertion order. -/
def keysOf (m : CollMap) : List Str := m.map Prod.fst

/-- Python `str.strip()`: remove leading and trailing whitespace. -/
def pyStrip (s : Str) : Str :=
  ((s.dropWhile pyIsSpace).reverse.dropWhile pyIsSpace).reverse

/-- Model of `re.search` with pattern `re.escape(t)`: a match exists iff `t` occurs
literally as a contiguous substring (an empty pattern always matches). -/
def searchLit (t : Str) : Str → Bool
  | [] => t.isEmpty
  | c :: cs => t.isPrefixOf (c :: cs) || searchLit t cs

/-- Worker for `replaceAll`.  The fuel argument decreases by one at each
step and is initialised to the length of the scanned text, which every
step shortens by at least one character, so the fuel never runs out. -/
def replaceAllF (t r : Str) : Nat → Str → Str
  | _, [] => []
  | 0, s => s
  | fuel + 1, c :: cs =>
      if t.isPrefixOf (c :: cs) && !t.isEmpty then
        r ++ replaceAllF t r fuel (cs.drop (t.length - 1))
      else
        c :: replaceAllF t r fuel cs

/-- Left-to-right non-overlapping replacement of the literal occurrences
of a non-empty `t` by `r`: the match scan of `re.sub` with the escaped
pattern `re.escape(t)`. -/
def replaceAll (t r : Str) (s : Str) : Str := replaceAllF t r s.length s

/-- Insert `r` at every position of `s`: `re.sub` with an empty pattern
(Python matches the empty pattern before every character and at the end). -/
def interAll (r : Str) : Str → Str
  | [] => r
  | c :: cs => r ++ c :: interAll r cs

/-- Replacement of the literal occurrences of the search text `t` by the
constant string `r`: the behaviour of one `re.sub(re.escape(t), …, s)`
call once its replacement template has been expanded to `r` (`re.sub`
inserts the same expansion at every match, because the escaped pattern
has no groups and group 0 is always the matched text `t` itself). -/
def subLit (t r : Str) (s : Str) : Str :=
  if t.isEmpty then interAll r s else replaceAll t r s

/-- Octal digit test, for replacement-template escapes. -/
def isOctDigit (c : Char) : Bool := '0' ≤ c && c ≤ '7'

/-- Numeric value of a string of octal digits. -/
def octVal (ds : Str) : Nat := ds.foldl (fun n d => n * 8 + (d.toNat - 48)) 0

/-- The known escapes of a `re.sub` replacement template (the `ESCAPES`
table of CPython's `re` parser). -/
def escCharMap : List (Char × Char) :=
  [('a', '\x07'), ('b', '\x08'), ('f', '\x0c'), ('n', '\n'),
   ('r', '\r'), ('t', '\t'), ('v', '\x0b'), ('\\', '\\')]

/-- Worker for `parseTemplate`.  The fuel decreases by one at each step
and is initialised to the template's length; every step consumes at least
one character, so the fuel never runs out. -/
def parseTemplateF (t : Str) : Nat → Str → Option Str
  | _, [] => some []
  | 0, _ :: _ => none
  | fuel + 1, c :: rest =>
      if c = '\\' then
        match rest with
        | [] => none
        | e :: rest2 =>
            if e = 'g' then
              match rest2 with
              | '<' :: rest3 =>
                  (match rest3.dropWhile (fun ch => ch ≠ '>') with
                   | [] => none
                   | _ :: rest4 =>
                       if rest3.takeWhile (fun ch => ch ≠ '>') ≠ [] ∧
                           (rest3.takeWhile (fun ch => ch ≠ '>')).all
                             (fun ch => ch = '0') then
                         (parseTemplateF t fuel rest4).map (fun l => t ++ l)
                       else none)
              | _ => none
            else if e = '0' then
              match rest2 with
              | d1 :: drest =>
                  if isOctDigit d1 then
                    match drest with
                    | d2 :: drest2 =>
                        if isOctDigit d2 then
                          (parseTemplateF t fuel drest2).map
                            (fun l => Char.ofNat (octVal [d1, d2]) :: l)
                        else
                          (parseTemplateF t fuel (d2 :: drest2)).map
                            (fun l => Char.ofNat (octVal [d1]) :: l)
                    | [] => some [Char.ofNat (octVal [d1])]
                  else
                    (parseTemplateF t fuel (d1 :: drest)).map
                      (fun l => Char.ofNat 0 :: l)
              | [] => some [Char.ofNat 0]
            else if e.isDigit then
              match rest2 with
              | d2 :: d3 :: drest =>
                  if d2.isDigit then
                    if isOctDigit e && isOctDigit d2 && isOctDigit d3 then
                      if octVal [e, d2, d3] ≤ 255 then
                        (parseTemplateF t fuel drest).map
                          (fun l => Char.ofNat (octVal [e, d2, d3]) :: l)
                      else none
                    else none
                  else none
              | _ => none
            else
              match escCharMap.find? (fun pr => pr.1 == e) with
              | some pr => (parseTemplateF t fuel rest2).map (fun l => pr.2 :: l)
              | none =>
                  if e.isAlpha then none
                  else (parseTemplateF t fuel rest2).map (fun l => c :: e :: l)
      else (parseTemplateF t fuel rest).map (fun l => c :: l)

/-- CPython's parsing of a `re.sub` replacement template, specialised to a
pattern produced by `re.escape` (such a pattern contains no groups, and
group 0 — the whole match — is always the search text `t` itself): plain
characters pass through; the escapes of `escCharMap` become the escaped
character; a backslash before `0` takes up to two more octal digits and a
backslash before three octal digits (value at most 255) become the octal
character; `\g<0>` (a group name of zeros) inserts the matched text; every
other numeric group reference or `\g<…>` form raises `re.error` (the
pattern has no groups),
as does a backslash before an unrecognised ASCII letter or a backslash at
the end; a backslash before any other character is kept verbatim with its
backslash.  `none` models the raised `re.error`. -/
def parseTemplate (t repl : Str) : Option Str := parseTemplateF t repl.length repl

/-- The thirteen selectable presets of `self.patterns`. -/
inductive Preset
  | replaceSpacesUnderscores
  | replaceSpacesHyphens
  | removeNumbers
  | removeSpecialChars
  | extractNumbersOnly
  | addFront
  | addSuffix
  | removeExtraSpaces
  | convertLower
  | convertUpper
  | camelCase
  | removeText
  | replaceText
deriving DecidableEq

/-- The rule built from the selected preset and the user inputs: a regex
(pattern, replacement) pair, a literal (find, replace) pair produced via
`re.escape`, or a case-transform mode. -/
inductive Rule
  | regexRule (pat repl : Str)
  | litRule (find repl : Str)
  | caseRule (mode : CaseMode)

/-- Lines 513–565 of `preview_changes`: build the rule from the selected
preset, `self.replacement_var` (`in1`) and `self.replace_with_var` (`in2`).
`Preset.addFront` is the "Add Prefix" choice of the source.  The presets of
the final `else` branch take their pattern from `self.patterns` and an
empty replacement. -/
def buildRule (p : Preset) (in1 in2 : Str) : Rule :=
  match p with
  | .removeText => .litRule (pyStrip in1) []
  | .replaceText => .litRule (pyStrip in1) (pyStrip in2)
  | .addFront => .regexRule "^(.*)$".data (pyStrip in1 ++ "\\1".data)
  | .addSuffix => .regexRule "^(.*?)(\\.[\\w]+)$".data ("\\1".data ++ pyStrip in1 ++ "\\2".data)
  | .replaceSpacesUnderscores => .regexRule "\\s+".data "_".data
  | .replaceSpacesHyphens => .regexRule "\\s+".data "-".data
  | .removeNumbers => .regexRule "\\d+".data []
  | .convertUpper => .caseRule .upper
  | .convertLower => .caseRule .lower
  | .camelCase => .caseRule .camel
  | .removeSpecialChars => .regexRule "[^a-zA-Z0-9._\\-\\s]".data []
  | .extractNumbersOnly => .regexRule "[^\\d]".data []
  | .removeExtraSpaces => .regexRule "\\s+".data []

/-- The behaviour of Python's `re` module on the fixed preset patterns:
whether a pattern compiles, whether it matches a name, and the substitution
result.  The text presets do not use it: `re.escape` guarantees them the
literal matching semantics `searchLit`, with the replacement processed by
`parseTemplate` and inserted by `subLit`. -/
structure RegexEngine where
  compileOk : Str → Bool
  search : Str → Str → Bool
  sub : Str → Str → Str → Str

/-- A trivial concrete engine (used to instantiate engine arguments). -/
def noopEngine : RegexEngine :=
  ⟨fun _ => true, fun _ _ => false, fun _ _ s => s⟩

/-- The plan computed by `preview_changes` for a preset (lines 582–612),
`none` when the computation raises: the case branch uses `caseChanges`;
the text presets use `apply_regex` with literal matching of the escaped
search text and the template-expanded replacement — when the template is
invalid, the first `re.sub` call raises `re.error`, so with at least one
matching file no plan is produced, and with no matching file `re.sub` is
never called and the plan is empty; the other presets use `apply_regex`
with the engine's semantics for the preset's pattern. -/
def planOf (E : RegexEngine) (p : Preset) (in1 in2 : Str) (files : List Str) :
    Option (List Change) :=
  match buildRule p in1 in2 with
  | .regexRule pat repl => some (apply_regex (E.search pat) (E.sub pat repl) files)
  | .litRule t r =>
      match parseTemplate t r with
      | some rExp => some (apply_regex (searchLit t) (subLit t rExp) files)
      | none =>
          if files.any (fun f => searchLit t (basename f)) then none
          else some []
  | .caseRule mode => some (caseChanges mode files)

/-- One entry of `self.rename_log`. -/
structure LogEntry where
  old_name : Str
  new_name : Str
  timestamp : Str
deriving DecidableEq

/-- The mutable application state the planning logic reads and writes:
`self.current_changes`, `self.current_collisions`, `self.rename_log`, and
whether the Rename button is enabled. -/
structure AppState where
  current_changes : List Change
  current_collisions : CollMap
  rename_log : List LogEntry
  renameEnabled : Bool
deriving DecidableEq

/-- The state after `__init__` (empty plan, empty collisions, empty log,
Rename button disabled). -/
def initState : AppState := ⟨[], [], [], false⟩

/-- Whether the basename contains a space: `" " in os.path.basename(f)`. -/
def hasSpace (f : Str) : Bool := (basename f).contains ' '

/-- Whether the preset is one of the two Replace Spaces options (the
special no-spaces check of lines 615–620 applies only to them). -/
def spacesPreset (p : Preset) : Bool :=
  decide (p = .replaceSpacesUnderscores) || decide (p = .replaceSpacesHyphens)

/-- Lines 614–661 of `preview_changes`, run after `self.current_changes`
has been stored: the no-spaces special case, the empty-plan check,
collision detection and storage, and the final display/enable.  Returns
the new state and the displayed plan (`none` when the function returns
without showing a preview). -/
def previewTail (p : Preset) (files : List Str) (s : AppState) :
    AppState × Option (List Change) :=
  if spacesPreset p && !(files.any hasSpace) then
    ({ s with renameEnabled := false }, none)
  else if s.current_changes.isEmpty then
    ({ s with renameEnabled := false }, none)
  else if !(detect_collisions s.current_changes).isEmpty then
    ({ s with current_collisions := detect_collisions s.current_changes,
              renameEnabled := false }, none)
  else
    ({ s with current_collisions := detect_collisions s.current_changes,
              renameEnabled := true }, some s.current_changes)

/-- Store the computed plan in the state and run the preview tail; when
the plan computation raises (an invalid replacement template), the
exception propagates before `self.current_changes` is assigned, so the
state is untouched and nothing is displayed. -/
def previewApply (E : RegexEngine) (p : Preset) (in1 in2 : Str)
    (files : List Str) (s : AppState) : AppState × Option (List Change) :=
  match planOf E p in1 in2 files with
  | some changes => previewTail p files { s with current_changes := changes }
  | none => (s, none)

/-- Model of `preview_changes` (lines 503–661).  `dirValid` models
`dir_path and os.path.isdir(dir_path)`, `files` the `collect_files`
result.  On an invalid directory or a failed `re.compile` the method
returns with the state untouched; with no files it only disables the
button; otherwise it computes and stores the plan and runs the tail. -/
def preview_changes (E : RegexEngine) (p : Preset) (in1 in2 : Str)
    (dirValid : Bool) (files : List Str) (s : AppState) :
    AppState × Option (List Change) :=
  if !dirValid then (s, none)
  else if files.isEmpty then ({ s with renameEnabled := false }, none)
  else
    match buildRule p in1 in2 with
    | .regexRule pat _ =>
        if !E.compileOk pat then (s, none)
        else previewApply E p in1 in2 files s
    | .litRule _ _ => previewApply E p in1 in2 files s
    | .caseRule _ => previewApply E p in1 in2 files s

/-- The record of one execution run of `rename_files`. -/
structure RunResult where
  attempted : List Change
  succ : Nat
  fail : Nat
  appended : List LogEntry
deriving DecidableEq

/-- The run of a `rename_files` call that performed nothing. -/
def emptyRun : RunResult := ⟨[], 0, 0, []⟩

/-- Whether the `os.rename(full_path, os.path.join(dirname, new_name))`
call for this change succeeds (`ok` is the filesystem's behaviour). -/
def renameCallOk (ok : Str → Str → Bool) (c : Change) : Bool :=
  ok c.full_path (joinPath (dirname c.full_path) c.new_name)

/-- The rename loop (lines 686–701): one `os.rename` attempt per planned
change; a raising call is counted as a failure and the loop continues; a
succeeding call appends a log entry with `times i` standing for
`datetime.now().isoformat()` at the i-th attempt. -/
def renameLoop (ok : Str → Str → Bool) (times : Nat → Str) :
    List Change → Nat → RunResult
  | [], _ => emptyRun
  | c :: rest, i =>
      let r := renameLoop ok times rest (i + 1)
      if renameCallOk ok c then
        ⟨c :: r.attempted, r.succ + 1, r.fail,
          ⟨c.old_name, c.new_name, times i⟩ :: r.appended⟩
      else
        ⟨c :: r.attempted, r.succ, r.fail + 1, r.appended⟩

/-- Model of `rename_files` (lines 665–724): returns the new application state, the
run record, and whether `save_rollback_log` was invoked.  With an empty
plan, with stored collisions, or when the user does not confirm, nothing
is attempted and the state is unchanged; otherwise the loop runs, the log
file is saved iff some rename succeeded, and the plan, the collision map
and the button are reset. -/
def rename_files (ok : Str → Str → Bool) (times : Nat → Str)
    (confirm : Bool) (s : AppState) : AppState × RunResult × Bool :=
  if s.current_changes.isEmpty then (s, emptyRun, false)
  else if !s.current_collisions.isEmpty then (s, emptyRun, false)
  else if !confirm then (s, emptyRun, false)
  else
    let r := renameLoop ok times s.current_changes 0
    ({ current_changes := [], current_collisions := [],
       rename_log := s.rename_log ++ r.appended, renameEnabled := false },
      r, decide (0 < r.succ))

/-- Specification-side: the log entries of the changes whose rename call
succeeds, with their attempt indices. -/
def successEntries (ok : Str → Str → Bool) (times : Nat → Str)
    (changes : List Change) (i : Nat) : List LogEntry :=
  (changes.zip (List.range' i changes.length)).filterMap (fun ci =>
    if renameCallOk ok ci.1 then
      some ⟨ci.1.old_name, ci.1.new_name, times ci.2⟩
    else none)

/-! ## Theorems -/

theorem lexLe_total (a b : Str) : lexLe a b = true ∨ lexLe b a = true := by
  induction a generalizing b with
  | nil => left; rfl
  | cons x xs ih =>
      cases b with
      | nil => right; rfl
      | cons y ys =>
          rcases lt_trichotomy x y with h | h | h
          · left; simp [lexLe, h]
          · subst h
            rcases ih ys with h2 | h2
            · left; simp [lexLe, lt_irrefl, h2]
            · right; simp [lexLe, lt_irrefl, h2]
          · right; simp [lexLe, h]

theorem lexLe_trans {a b c : Str} (h1 : lexLe a b = true) (h2 : lexLe b c = true) :
    lexLe a c = true := by
  induction a generalizing b c with
  | nil => rfl
  | cons x xs ih =>
      cases b with
      | nil => simp [lexLe] at h1
      | cons y ys =>
          cases c with
          | nil => simp [lexLe] at h2
          | cons z zs =>
              rcases lt_trichotomy x y with hxy | hxy | hxy
              · rcases lt_trichotomy y z with hyz | hyz | hyz
                · simp [lexLe, lt_trans hxy hyz]
                · subst hyz; simp [lexLe, hxy]
                · simp [lexLe, lt_asymm hyz, hyz] at h2
              · subst hxy
                rcases lt_trichotomy x z with hyz | hyz | hyz
                · simp [lexLe, hyz]
                · subst hyz
                  simp only [lexLe, lt_irrefl, if_false] at h1 h2 ⊢
                  exact ih h1 h2
                · simp [lexLe, lt_asymm hyz, hyz] at h2
              · simp [lexLe, lt_asymm hxy, hxy] at h1

theorem insertLe_perm (x : Str) (l : List Str) : List.Perm (insertLe x l) (x :: l) := by
  induction l with
  | nil => rfl
  | cons y ys ih =>
      simp only [insertLe]
      by_cases h : lexLe x y
      · simp [h]
      · simp only [h, if_false]
        exact List.Perm.trans (List.Perm.cons y ih) (List.Perm.swap x y ys)

theorem sortStr_perm (l : List Str) : List.Perm (sortStr l) l := by
  induction l with
  | nil => rfl
  | cons x xs ih =>
      exact List.Perm.trans (insertLe_perm x (sortStr xs)) (List.Perm.cons x ih)

theorem insertLe_sorted (x : Str) (l : List Str)
    (h : l.Pairwise (fun a b => lexLe a b = true)) :
    (insertLe x l).Pairwise (fun a b => lexLe a b = true) := by
  induction l with
  | nil => simp [insertLe]
  | cons y ys ih =>
      simp only [insertLe]
      rcases List.pairwise_cons.mp h with ⟨hy, hys⟩
      by_cases hxy : lexLe x y
      · simp only [hxy, if_true]
        refine List.pairwise_cons.mpr ⟨?_, h⟩
        intro b hb
        rcases List.mem_cons.mp hb with hb | hb
        · subst hb; exact hxy
        · exact lexLe_trans hxy (hy b hb)
      · simp only [hxy, if_false]
        have hyx : lexLe y x = true := by
          rcases lexLe_total x y with h1 | h1
          · exact absurd h1 hxy
          · exact h1
        refine List.pairwise_cons.mpr ⟨?_, ih hys⟩
        intro b hb
        rcases List.mem_cons.mp ((insertLe_perm x ys).mem_iff.mp hb) with hb | hb
        · subst hb; exact hyx
        · exact hy b hb

theorem sortStr_sorted (l : List Str) :
    (sortStr l).Pairwise (fun a b => lexLe a b = true) := by
  induction l with
  | nil => simp [sortStr]
  | cons x xs ih => exact insertLe_sorted x (sortStr xs) ih

theorem dictFind_addName (m : CollMap) (k2 v k : Str) :
    dictFind (addName m k2 v) k =
      if k2 = k then some (((dictFind m k).getD []) ++ [v]) else dictFind m k := by
  induction m with
  | nil => by_cases h : k2 = k <;> simp [addName, dictFind, h]
  | cons a rest ih =>
      obtain ⟨ka, va⟩ := a
      by_cases h1 : ka = k2
      · subst h1
        by_cases h2 : ka = k <;> simp [addName, dictFind, h2]
      · by_cases h2 : ka = k
        · subst h2
          have h3 : ¬ k2 = ka := fun h => h1 h.symm
          simp [addName, dictFind, h1, h3]
        · simp [addName, dictFind, h1, h2, ih]

theorem keysOf_addName (m : CollMap) (k v : Str) :
    keysOf (addName m k v) = if k ∈ keysOf m then keysOf m else keysOf m ++ [k] := by
  induction m with
  | nil => simp [addName, keysOf]
  | cons a rest ih =>
      obtain ⟨ka, va⟩ := a
      by_cases h : ka = k
      · subst h; simp [addName, keysOf]
      · have h2 : ¬ k = ka := fun hh => h hh.symm
        simp only [addName, if_neg h, keysOf, List.map_cons] at ih ⊢
        rw [ih]
        by_cases hm : k ∈ List.map Prod.fst rest
        · simp [hm, h2]
        · simp [hm, h2]

theorem nodup_keys_addName (m : CollMap) (k v : Str)
    (h : (keysOf m).Nodup) : (keysOf (addName m k v)).Nodup := by
  rw [keysOf_addName]
  by_cases hm : k ∈ keysOf m
  · simpa [hm] using h
  · simp only [hm, if_false]
    simp [List.nodup_append, h, hm]

theorem nodup_keys_build (changes : List Change) :
    (keysOf (buildNewNames changes)).Nodup := by
  have main : ∀ (cs : List Change) (m : CollMap), (keysOf m).Nodup →
      (keysOf (cs.foldl (fun m c => addName m (targetPath c) c.old_name) m)).Nodup := by
    intro cs
    induction cs with
    | nil => intro m hm; simpa using hm
    | cons c rest ih =>
        intro m hm
        exact ih _ (nodup_keys_addName _ _ _ hm)
  exact main changes [] (by simp [keysOf])

theorem oldsFor_cons (c : Change) (rest : List Change) (k : Str) :
    oldsFor (c :: rest) k =
      if targetPath c = k then c.old_name :: oldsFor rest k else oldsFor rest k := by
  by_cases h : targetPath c = k <;> simp [oldsFor, h]

theorem dictFind_foldl (changes : List Change) (m : CollMap) (k : Str) :
    dictFind (changes.foldl (fun m c => addName m (targetPath c) c.old_name) m) k =
      match dictFind m k with
      | some l => some (l ++ oldsFor changes k)
      | none => if oldsFor changes k = [] then none else some (oldsFor changes k) := by
  induction changes generalizing m with
  | nil => cases h : dictFind m k <;> simp [oldsFor, h]
  | cons c rest ih =>
      simp only [List.foldl_cons]
      rw [ih, dictFind_addName, oldsFor_cons]
      by_cases ht : targetPath c = k
      · cases h : dictFind m k <;> simp [ht, h]
      · cases h : dictFind m k <;> simp [ht, h]

theorem dictFind_eq_none_of_not_mem_keys (m : CollMap) (k : Str)
    (h : k ∉ keysOf m) : dictFind m k = none := by
  induction m with
  | nil => rfl
  | cons a rest ih =>
      obtain ⟨ka, va⟩ := a
      simp only [keysOf, List.map_cons, List.mem_cons] at h
      push_neg at h
      simp only [dictFind]
      rw [if_neg (fun hh => h.1 hh.symm)]
      exact ih (by simpa [keysOf] using h.2)

theorem dictFind_filter (m : CollMap) (k : Str) (hnd : (keysOf m).Nodup) :
    dictFind (m.filter (fun p => p.2.length > 1)) k =
      match dictFind m k with
      | none => none
      | some vs => if vs.length > 1 then some vs else none := by
  induction m with
  | nil => simp [dictFind]
  | cons a rest ih =>
      obtain ⟨ka, va⟩ := a
      have hnd2 : (keysOf rest).Nodup := (List.nodup_cons.mp (by simpa [keysOf] using hnd)).2
      have hka : ka ∉ keysOf rest := (List.nodup_cons.mp (by simpa [keysOf] using hnd)).1
      by_cases hk : ka = k
      · subst hk
        by_cases hl : va.length > 1
        · simp [List.filter_cons, dictFind, hl]
        · have hnone : dictFind (rest.filter (fun p => p.2.length > 1)) ka = none := by
            apply dictFind_eq_none_of_not_mem_keys
            intro hmem
            apply hka
            simp only [keysOf, List.mem_map] at hmem ⊢
            obtain ⟨p, hp, hpk⟩ := hmem
            exact ⟨p, List.mem_of_mem_filter hp, hpk⟩
          simp [List.filter_cons, dictFind, hl, hnone]
      · by_cases hl : va.length > 1 <;>
          simp [List.filter_cons, dictFind, hl, hk, ih hnd2]

/-- **C2.** `detect_collisions` returns exactly the map whose keys are the
target paths (directory of the source joined with the new name) claimed by
two or more planned triples, each mapped to the list of old names of all
the triples claiming it, in input order; targets claimed by exactly one
triple are absent. -/
theorem c2_detect_collisions_spec (changes : List Change) (k : Str) :
    dictFind (detect_collisions changes) k =
      if 2 ≤ (oldsFor changes k).length then some (oldsFor changes k) else none := by
  unfold detect_collisions
  rw [dictFind_filter _ _ (nodup_keys_build changes)]
  have hb : dictFind (buildNewNames changes) k =
      if oldsFor changes k = [] then none else some (oldsFor changes k) := by
    unfold buildNewNames
    rw [dictFind_foldl]
    simp [dictFind]
  rw [hb]
  by_cases h : oldsFor changes k = []
  · simp [h]
  · simp only [h, if_false]
    by_cases h2 : 2 ≤ (oldsFor changes k).length
    · rw [if_pos (show (oldsFor changes k).length > 1 by omega), if_pos h2]
    · rw [if_neg (show ¬ (oldsFor changes k).length > 1 by omega), if_neg h2]

/-- **C3.** `apply_regex` returns exactly the triples, in input order, for
the files whose basename the engine matches, with the new name given by the
engine's substitution, excluding no-ops and names with an illegal character. -/
theorem c3_apply_regex_spec (search : Str → Bool) (sub : Str → Str) (files : List Str) :
    apply_regex search sub files =
      files.filterMap (fun fp =>
        if search (basename fp) ∧ is_valid_filename (sub (basename fp)) ∧
            sub (basename fp) ≠ basename fp
        then some ⟨fp, basename fp, sub (basename fp)⟩ else none) := by
  induction files with
  | nil => rfl
  | cons fp rest ih =>
      simp only [apply_regex, List.filterMap_cons]
      by_cases h1 : search (basename fp)
      · by_cases h2 : is_valid_filename (sub (basename fp))
        · by_cases h3 : sub (basename fp) ≠ basename fp
          · simp [h1, h2, h3, ih]
          · simp [h1, h2, h3, ih]
        · simp [h1, h2, ih]
      · simp [h1, ih]

/-- **C7.** `collect_files` keeps exactly the listing entries that are
regular files of the one directory (a permutation of the filtered listing,
so nothing else enters and no subdirectory is descended into), sorts the
full paths lexicographically, and ignores its `recursive` parameter. -/
theorem c7_collect_files_spec (dirPath : Str) (listing : List Str) (isFile : Str → Bool) :
    collect_files dirPath listing isFile true = collect_files dirPath listing isFile false ∧
    List.Perm (collect_files dirPath listing isFile false)
      (listing.filterMap (fun name =>
        if isFile (joinPath dirPath name) then some (joinPath dirPath name) else none)) ∧
    (collect_files dirPath listing isFile false).Pairwise (fun a b => lexLe a b = true) :=
  ⟨rfl, sortStr_perm _, sortStr_sorted _⟩

theorem is_valid_filename_iff (f : Str) :
    is_valid_filename f = true ↔ ∀ c ∈ f, c ∉ illegalChars := by
  unfold is_valid_filename
  rw [Bool.not_eq_true', List.any_eq_false]
  simp

theorem pyToUpper_not_illegal {c : Char} (h : c ∉ illegalChars) :
    pyToUpper c ∉ illegalChars := by
  unfold pyToUpper
  cases hf : asciiUpperMap.find? (fun p => p.1 == c) with
  | none => exact h
  | some p =>
      have hp : p ∈ asciiUpperMap := List.mem_of_find?_eq_some hf
      have hall : ∀ q ∈ asciiUpperMap, q.2 ∉ illegalChars := by decide
      exact hall p hp

theorem pyToLower_not_illegal {c : Char} (h : c ∉ illegalChars) :
    pyToLower c ∉ illegalChars := by
  unfold pyToLower
  cases hf : asciiUpperMap.find? (fun p => p.2 == c) with
  | none => exact h
  | some p =>
      have hp : p ∈ asciiUpperMap := List.mem_of_find?_eq_some hf
      have hall : ∀ q ∈ asciiUpperMap, q.1 ∉ illegalChars := by decide
      exact hall p hp

theorem mem_pySplitAux {w : Str} {ch : Char} :
    ∀ (s acc : Str), w ∈ pySplitAux s acc → ch ∈ w → ch ∈ s ∨ ch ∈ acc := by
  intro s
  induction s with
  | nil =>
      intro acc hw hch
      by_cases ha : acc.isEmpty
      · simp [pySplitAux, ha] at hw
      · simp [pySplitAux, ha] at hw
        subst hw
        right
        simpa using hch
  | cons c cs ih =>
      intro acc hw hch
      by_cases hsp : pyIsSpace c
      · by_cases ha : acc.isEmpty
        · simp only [pySplitAux, hsp, ha, if_true] at hw
          rcases ih [] hw hch with h | h
          · left; exact List.mem_cons_of_mem _ h
          · simp at h
        · simp [pySplitAux, hsp, ha] at hw
          rcases hw with hw | hw
          · subst hw; right; simpa using hch
          · rcases ih [] hw hch with h | h
            · left; exact List.mem_cons_of_mem _ h
            · simp at h
      · simp [pySplitAux, hsp] at hw
        rcases ih (c :: acc) hw hch with h | h
        · left; exact List.mem_cons_of_mem _ h
        · rcases List.mem_cons.mp h with h | h
          · subst h; left; exact List.mem_cons_self _ _
          · right; exact h

theorem mem_joinSp {ch : Char} :
    ∀ (L : List Str), ch ∈ joinSp L → ch = ' ' ∨ ∃ w ∈ L, ch ∈ w := by
  intro L
  induction L with
  | nil => intro h; simp [joinSp] at h
  | cons w ws ih =>
      intro h
      cases ws with
      | nil =>
          right
          exact ⟨w, by simp, by simpa [joinSp] using h⟩
      | cons w2 ws2 =>
          simp only [joinSp, List.mem_append, List.mem_cons] at h
          rcases h with h | h | h
          · right; exact ⟨w, by simp, h⟩
          · left; exact h
          · rcases ih h with h2 | ⟨u, hu, hcu⟩
            · left; exact h2
            · right; exact ⟨u, List.mem_cons_of_mem _ hu, hcu⟩

theorem mem_pyCapitalize {ch : Char} {w : Str} (h : ch ∈ pyCapitalize w) :
    ∃ c ∈ w, ch = pyToUpper c ∨ ch = pyToLower c := by
  cases w with
  | nil => simp [pyCapitalize] at h
  | cons c cs =>
      simp only [pyCapitalize, List.mem_cons] at h
      rcases h with h | h
      · exact ⟨c, List.mem_cons_self _ _, Or.inl h⟩
      · rcases List.mem_map.mp h with ⟨d, hd, hdd⟩
        exact ⟨d, List.mem_cons_of_mem _ hd, Or.inr hdd.symm⟩

theorem mem_camelize {ch : Char} {n : Str} (h : ch ∈ camelize n) :
    ch = ' ' ∨ ∃ c ∈ n, ch = pyToUpper c ∨ ch = pyToLower c := by
  unfold camelize at h
  rcases mem_joinSp _ h with h | ⟨w, hw, hcw⟩
  · left; exact h
  · rcases List.mem_map.mp hw with ⟨w0, hw0, rfl⟩
    rcases mem_pyCapitalize hcw with ⟨c, hc, hcc⟩
    right
    refine ⟨c, ?_, hcc⟩
    rcases mem_pySplitAux n [] hw0 hc with h2 | h2
    · exact h2
    · simp at h2

theorem caseStem_valid {mode : CaseMode} {stem : Str}
    (h : ∀ c ∈ stem, c ∉ illegalChars) :
    ∀ ch ∈ caseStem mode stem, ch ∉ illegalChars := by
  intro ch hch
  cases mode with
  | upper =>
      simp only [caseStem] at hch
      rcases List.mem_map.mp hch with ⟨c, hc, rfl⟩
      exact pyToUpper_not_illegal (h c hc)
  | lower =>
      simp only [caseStem] at hch
      rcases List.mem_map.mp hch with ⟨c, hc, rfl⟩
      exact pyToLower_not_illegal (h c hc)
  | camel =>
      simp only [caseStem] at hch
      rcases mem_camelize hch with h2 | ⟨c, hc, hcc⟩
      · subst h2; decide
      · rcases hcc with rfl | rfl
        · exact pyToUpper_not_illegal (h c hc)
        · exact pyToLower_not_illegal (h c hc)

theorem splitext_eq_nil (name : Str) (hd : name.reverse.dropWhile notDot = []) :
    splitext name = (name, []) := by
  unfold splitext
  rw [hd]

theorem splitext_eq_cons (name : Str) (d : Char) (preRev : Str)
    (hd : name.reverse.dropWhile notDot = d :: preRev) :
    splitext name =
      if preRev.any notDot then
        (preRev.reverse, d :: (name.reverse.takeWhile notDot).reverse)
      else (name, []) := by
  unfold splitext
  rw [hd]

theorem splitext_append (name : Str) :
    (splitext name).1 ++ (splitext name).2 = name := by
  cases hd : name.reverse.dropWhile notDot with
  | nil => rw [splitext_eq_nil name hd]; simp
  | cons d preRev =>
      rw [splitext_eq_cons name d preRev hd]
      by_cases hp : preRev.any notDot
      · rw [if_pos hp]
        have hsplit : name.reverse.takeWhile notDot ++ (d :: preRev) = name.reverse := by
          rw [← hd, List.takeWhile_append_dropWhile]
        have hname : name = preRev.reverse ++ d :: (name.reverse.takeWhile notDot).reverse := by
          conv_lhs => rw [← List.reverse_reverse name, ← hsplit]
          simp
        conv_rhs => rw [hname]
      · rw [if_neg hp]
        simp

theorem caseNewName_eq (mode : CaseMode) (old : Str) :
    caseNewName mode old = caseStem mode (splitext old).1 ++ (splitext old).2 := by
  cases mode <;> rfl

theorem previewTail_blocks (p : Preset) (files : List Str) (s1 : AppState)
    (h : detect_collisions (previewTail p files s1).1.current_changes ≠ []) :
    (previewTail p files s1).1.renameEnabled = false ∧
    (previewTail p files s1).2 = none := by
  by_cases h1 : (spacesPreset p && !(files.any hasSpace)) = true
  · unfold previewTail
    rw [if_pos h1]
    exact ⟨rfl, rfl⟩
  · by_cases h2 : s1.current_changes.isEmpty = true
    · unfold previewTail
      rw [if_neg h1, if_pos h2]
      exact ⟨rfl, rfl⟩
    · by_cases h3 : (!(detect_collisions s1.current_changes).isEmpty) = true
      · unfold previewTail
        rw [if_neg h1, if_neg h2, if_pos h3]
        exact ⟨rfl, rfl⟩
      · exfalso
        unfold previewTail at h
        rw [if_neg h1, if_neg h2, if_neg h3] at h
        have h3' : (detect_collisions s1.current_changes).isEmpty = true := by
          cases hx : (detect_collisions s1.current_changes).isEmpty
          · exact absurd (by rw [hx]; rfl) h3
          · rfl
        exact h (List.isEmpty_iff.mp h3')

theorem preview_shape (E : RegexEngine) (p : Preset) (in1 in2 : Str)
    (dirValid : Bool) (files : List Str) (s : AppState) :
    preview_changes E p in1 in2 dirValid files s = (s, none) ∨
    preview_changes E p in1 in2 dirValid files s = ({ s with renameEnabled := false }, none) ∨
    preview_changes E p in1 in2 dirValid files s = previewApply E p in1 in2 files s := by
  by_cases hdv : (!dirValid) = true
  · left; simp [preview_changes, hdv]
  · by_cases hfe : files.isEmpty = true
    · right; left; simp [preview_changes, hdv, hfe]
    · cases hbr : buildRule p in1 in2 with
      | regexRule pat repl =>
          by_cases hco : (!E.compileOk pat) = true
          · left; simp [preview_changes, hdv, hfe, hbr, hco]
          · right; right; simp [preview_changes, hdv, hfe, hbr, hco]
      | litRule t r => right; right; simp [preview_changes, hdv, hfe, hbr]
      | caseRule mode => right; right; simp [preview_changes, hdv, hfe, hbr]

theorem previewApply_blocks (E : RegexEngine) (p : Preset) (in1 in2 : Str)
    (files : List Str) (s : AppState)
    (hinv : s.renameEnabled = true → detect_collisions s.current_changes = [])
    (h : detect_collisions (previewApply E p in1 in2 files s).1.current_changes ≠ []) :
    (previewApply E p in1 in2 files s).1.renameEnabled = false ∧
    (previewApply E p in1 in2 files s).2 = none := by
  cases hplan : planOf E p in1 in2 files with
  | none =>
      unfold previewApply at h ⊢
      rw [hplan] at h ⊢
      refine ⟨?_, rfl⟩
      cases hb : s.renameEnabled
      · rfl
      · exact absurd (hinv hb) h
  | some changes =>
      unfold previewApply at h ⊢
      rw [hplan] at h ⊢
      exact previewTail_blocks _ _ _ h

theorem successEntries_cons (ok : Str → Str → Bool) (times : Nat → Str)
    (c : Change) (rest : List Change) (i : Nat) :
    successEntries ok times (c :: rest) i =
      if renameCallOk ok c then
        ⟨c.old_name, c.new_name, times i⟩ :: successEntries ok times rest (i + 1)
      else successEntries ok times rest (i + 1) := by
  unfold successEntries
  rw [List.length_cons, List.range'_succ, List.zip_cons_cons, List.filterMap_cons]
  by_cases hc : renameCallOk ok c <;> simp [hc]

theorem renameLoop_spec (ok : Str → Str → Bool) (times : Nat → Str) :
    ∀ (changes : List Change) (i : Nat),
      (renameLoop ok times changes i).attempted = changes ∧
      (renameLoop ok times changes i).succ + (renameLoop ok times changes i).fail
        = changes.length ∧
      (renameLoop ok times changes i).appended = successEntries ok times changes i ∧
      (0 < (renameLoop ok times changes i).succ ↔
        ∃ c ∈ changes, renameCallOk ok c = true) := by
  intro changes
  induction changes with
  | nil =>
      intro i
      refine ⟨rfl, rfl, rfl, ?_⟩
      simp [renameLoop, emptyRun]
  | cons c rest ih =>
      intro i
      obtain ⟨ha, hs, hap, hpos⟩ := ih (i + 1)
      rw [successEntries_cons]
      by_cases hc : renameCallOk ok c = true
      · simp only [renameLoop, hc, if_true]
        refine ⟨by rw [ha], by simp only [List.length_cons]; omega, by rw [hap], ?_⟩
        constructor
        · intro
          exact ⟨c, List.mem_cons_self _ _, hc⟩
        · intro
          omega
      · have hc' : renameCallOk ok c = false := by
          cases hx : renameCallOk ok c
          · rfl
          · exact absurd hx hc
        simp only [renameLoop, hc', if_false, Bool.false_eq_true]
        refine ⟨by rw [ha], by simp only [List.length_cons]; omega, by rw [hap], ?_⟩
        rw [hpos]
        constructor
        · rintro ⟨x, hx, hokx⟩
          exact ⟨x, List.mem_cons_of_mem _ hx, hokx⟩
        · rintro ⟨x, hx, hokx⟩
          rcases List.mem_cons.mp hx with rfl | hx2
          · rw [hokx] at hc'; cases hc'
          · exact ⟨x, hx2, hokx⟩

theorem rename_files_run (ok : Str → Str → Bool) (times : Nat → Str) (s : AppState)
    (hne : s.current_changes ≠ []) (hcoll : s.current_collisions = []) :
    rename_files ok times true s =
      ({ current_changes := [], current_collisions := [],
         rename_log := s.rename_log ++ (renameLoop ok times s.current_changes 0).appended,
         renameEnabled := false },
       renameLoop ok times s.current_changes 0,
       decide (0 < (renameLoop ok times s.current_changes 0).succ)) := by
  unfold rename_files
  rw [if_neg (fun h => hne (List.isEmpty_iff.mp h)),
      if_neg (by simp [hcoll]), if_neg (by simp)]

/-- Claim C1: renames never execute on a colliding plan.  When the plan a
preview run holds in the state has collisions, the preview has disabled
the Rename action and returned before displaying a plan, and whenever the
stored collision map reflects a colliding plan, `rename_files` attempts no
`os.rename` call, leaves the rollback log untouched, and does not save a
log file.  (The invariant hypotheses record what the GUI guarantees: the
button is only enabled by a collision-free preview, and the stored
collision map is the collision map of the stored plan.) -/
theorem c1_collision_blocks_rename :
    (∀ (E : RegexEngine) (p : Preset) (in1 in2 : Str) (dirValid : Bool)
        (files : List Str) (s : AppState),
        (s.renameEnabled = true → detect_collisions s.current_changes = []) →
        detect_collisions
            (preview_changes E p in1 in2 dirValid files s).1.current_changes ≠ [] →
          (preview_changes E p in1 in2 dirValid files s).1.renameEnabled = false ∧
          (preview_changes E p in1 in2 dirValid files s).2 = none) ∧
    (∀ (ok : Str → Str → Bool) (times : Nat → Str) (confirm : Bool) (s : AppState),
        s.current_collisions = detect_collisions s.current_changes →
        detect_collisions s.current_changes ≠ [] →
          (rename_files ok times confirm s).2.1.attempted = [] ∧
          (rename_files ok times confirm s).1.rename_log = s.rename_log ∧
          (rename_files ok times confirm s).2.2 = false) := by
  constructor
  · intro E p in1 in2 dirValid files s hinv h
    rcases preview_shape E p in1 in2 dirValid files s with heq | heq | heq
    · rw [heq] at h ⊢
      refine ⟨?_, rfl⟩
      cases hb : s.renameEnabled
      · rfl
      · exact absurd (hinv hb) h
    · rw [heq] at h ⊢
      exact ⟨rfl, rfl⟩
    · rw [heq] at h ⊢
      exact previewApply_blocks _ _ _ _ _ _ hinv h
  · intro ok times confirm s hlink hcoll
    by_cases h1 : s.current_changes.isEmpty = true
    · exfalso
      rw [List.isEmpty_iff] at h1
      rw [h1] at hcoll
      exact hcoll rfl
    · have h2 : (!s.current_collisions.isEmpty) = true := by
        rw [hlink]
        cases hx : (detect_collisions s.current_changes).isEmpty
        · rfl
        · exact absurd (List.isEmpty_iff.mp hx) hcoll
      unfold rename_files
      rw [if_neg h1, if_pos h2]
      exact ⟨rfl, rfl, rfl⟩

/-- Witness for C1: a preview whose plan collides (two files upper-casing
to the same name) disables the button and shows nothing, and
`rename_files` on a colliding state performs no rename. -/
theorem c1_collision_blocks_rename_witness :
    ((preview_changes noopEngine Preset.convertUpper [] [] true
        [['a','b'], ['a','B']] initState).1.renameEnabled = false ∧
      (preview_changes noopEngine Preset.convertUpper [] [] true
        [['a','b'], ['a','B']] initState).2 = none) ∧
    (rename_files (fun _ _ => true) (fun _ => []) true
        ⟨[⟨['a'], ['a'], ['c']⟩, ⟨['b'], ['b'], ['c']⟩],
          detect_collisions [⟨['a'], ['a'], ['c']⟩, ⟨['b'], ['b'], ['c']⟩],
          [], false⟩).2.1.attempted = [] :=
  ⟨c1_collision_blocks_rename.1 noopEngine Preset.convertUpper [] [] true
      [['a','b'], ['a','B']] initState (by decide) (by decide),
   (c1_collision_blocks_rename.2 (fun _ _ => true) (fun _ => []) true
      ⟨[⟨['a'], ['a'], ['c']⟩, ⟨['b'], ['b'], ['c']⟩],
        detect_collisions [⟨['a'], ['a'], ['c']⟩, ⟨['b'], ['b'], ['c']⟩],
        [], false⟩ rfl (by decide)).1⟩

/-- Counterexample to Claim C4 as stated: under the Convert to Uppercase
preset, the preview step displays a plan whose new name `A<B.txt` contains
the illegal character `<` (the case-conversion branch never validates). -/
theorem c4_counterexample_case_illegal :
    (preview_changes noopEngine Preset.convertUpper [] [] true
        [['a','<','b','.','t','x','t']] initState).2 =
      some [⟨['a','<','b','.','t','x','t'], ['a','<','b','.','t','x','t'],
             ['A','<','B','.','t','x','t']⟩] ∧
    is_valid_filename ['A','<','B','.','t','x','t'] = false := by
  decide

/-- Claim C4, amended: every planned change produced through `apply_regex`
(the path of all regex and text presets) has a new name with no illegal
character; the case-conversion presets do not validate, so their planned
new names are only guaranteed legal when the input filename is legal; and
a name is valid exactly when it contains none of `< > : " / \ | ? *`. -/
theorem c4_plan_validity :
    (∀ (search : Str → Bool) (sub : Str → Str) (files : List Str) (c : Change),
        c ∈ apply_regex search sub files → is_valid_filename c.new_name = true) ∧
    (∀ (mode : CaseMode) (files : List Str) (c : Change),
        c ∈ caseChanges mode files → is_valid_filename c.old_name = true →
          is_valid_filename c.new_name = true) ∧
    (∀ f : Str, is_valid_filename f = true ↔ ∀ ch ∈ f, ch ∉ illegalChars) := by
  refine ⟨?_, ?_, fun f => is_valid_filename_iff f⟩
  · intro search sub files
    induction files with
    | nil => intro c hc; simp [apply_regex] at hc
    | cons fp rest ih =>
        intro c hc
        simp only [apply_regex] at hc
        by_cases h1 : search (basename fp) = true
        · by_cases h2 : is_valid_filename (sub (basename fp)) = true
          · by_cases h3 : sub (basename fp) ≠ basename fp
            · simp only [h1, h2, if_true] at hc
              rw [if_pos h3] at hc
              rcases List.mem_cons.mp hc with rfl | hc2
              · exact h2
              · exact ih c hc2
            · simp only [h1, h2, if_true] at hc
              rw [if_neg h3] at hc
              exact ih c hc
          · simp only [h1, h2, if_true, Bool.false_eq_true, if_false] at hc
            exact ih c hc
        · simp only [h1, Bool.false_eq_true, if_false] at hc
          exact ih c hc
  · intro mode files
    induction files with
    | nil => intro c hc; simp [caseChanges] at hc
    | cons fp rest ih =>
        intro c hc hvold
        simp only [caseChanges] at hc
        by_cases hne : caseNewName mode (basename fp) ≠ basename fp
        · rw [if_pos hne] at hc
          rcases List.mem_cons.mp hc with rfl | hc2
          · rw [is_valid_filename_iff] at hvold ⊢
            intro ch hch
            have hch2 : ch ∈ caseStem mode (splitext (basename fp)).1
                ++ (splitext (basename fp)).2 := by
              rw [← caseNewName_eq]
              exact hch
            rcases List.mem_append.mp hch2 with hst | hex
            · refine caseStem_valid ?_ ch hst
              intro c2 hc2
              apply hvold
              have : c2 ∈ (splitext (basename fp)).1 ++ (splitext (basename fp)).2 :=
                List.mem_append_left _ hc2
              rwa [splitext_append] at this
            · apply hvold
              have : ch ∈ (splitext (basename fp)).1 ++ (splitext (basename fp)).2 :=
                List.mem_append_right _ hex
              rwa [splitext_append] at this
          · exact ih c hc2 hvold
        · rw [if_neg hne] at hc
          exact ih c hc hvold

/-- Witness for C4 (amended): the regex path keeps a valid new name, and
the case path keeps a valid new name from a valid input. -/
theorem c4_plan_validity_witness :
    is_valid_filename (['x'] : Str) = true ∧ is_valid_filename (['A'] : Str) = true :=
  ⟨c4_plan_validity.1 (fun _ => true) (fun _ => ['x']) [['a']]
      ⟨['a'], ['a'], ['x']⟩ (by decide),
   c4_plan_validity.2.1 CaseMode.upper [['a']] ⟨['a'], ['a'], ['A']⟩
      (by decide) (by decide)⟩

/-- Claim C5: for a non-empty confirmed plan with no stored collisions,
the executor attempts a rename for every planned triple (a failing call
does not stop the remaining attempts), and successes plus failures equal
the number of planned changes. -/
theorem c5_executor_attempts_all (ok : Str → Str → Bool) (times : Nat → Str)
    (s : AppState) (hne : s.current_changes ≠ []) (hcoll : s.current_collisions = []) :
    (rename_files ok times true s).2.1.attempted = s.current_changes ∧
    (rename_files ok times true s).2.1.succ + (rename_files ok times true s).2.1.fail
      = s.current_changes.length := by
  rw [rename_files_run ok times s hne hcoll]
  obtain ⟨ha, hs, _, _⟩ := renameLoop_spec ok times s.current_changes 0
  exact ⟨ha, hs⟩

/-- Witness for C5: a two-change run in which the first rename fails still
attempts both changes, and the counts sum to the plan size. -/
theorem c5_executor_attempts_all_witness :
    (rename_files (fun fp _ => fp == ['c']) (fun _ => []) true
        ⟨[⟨['a'], ['a'], ['b']⟩, ⟨['c'], ['c'], ['d']⟩], [], [], true⟩).2.1.attempted
      = [⟨['a'], ['a'], ['b']⟩, ⟨['c'], ['c'], ['d']⟩] ∧
    (rename_files (fun fp _ => fp == ['c']) (fun _ => []) true
        ⟨[⟨['a'], ['a'], ['b']⟩, ⟨['c'], ['c'], ['d']⟩], [], [], true⟩).2.1.succ
      + (rename_files (fun fp _ => fp == ['c']) (fun _ => []) true
        ⟨[⟨['a'], ['a'], ['b']⟩, ⟨['c'], ['c'], ['d']⟩], [], [], true⟩).2.1.fail = 2 :=
  c5_executor_attempts_all (fun fp _ => fp == ['c']) (fun _ => [])
    ⟨[⟨['a'], ['a'], ['b']⟩, ⟨['c'], ['c'], ['d']⟩], [], [], true⟩ (by decide) rfl

/-- Claim C6: in a confirmed run, a log entry (old name, new name,
timestamp) is appended exactly for the changes whose `os.rename` call
succeeds; the session log is extended by exactly those entries; and the
rollback-log file is saved iff at least one rename of the run succeeded. -/
theorem c6_rollback_log_iff_success (ok : Str → Str → Bool) (times : Nat → Str)
    (s : AppState) (hne : s.current_changes ≠ []) (hcoll : s.current_collisions = []) :
    (rename_files ok times true s).2.1.appended
      = successEntries ok times s.current_changes 0 ∧
    (rename_files ok times true s).1.rename_log
      = s.rename_log ++ (rename_files ok times true s).2.1.appended ∧
    ((rename_files ok times true s).2.2 = true ↔
      ∃ c ∈ s.current_changes, renameCallOk ok c = true) := by
  rw [rename_files_run ok times s hne hcoll]
  obtain ⟨_, _, hap, hpos⟩ := renameLoop_spec ok times s.current_changes 0
  refine ⟨hap, rfl, ?_⟩
  rw [decide_eq_true_eq]
  exact hpos

/-- Witness for C6: in a run where only the second change's rename
succeeds, exactly one entry (its old name, new name and timestamp) is
appended and the log file is saved. -/
theorem c6_rollback_log_iff_success_witness :
    (rename_files (fun fp _ => fp == ['c']) (fun _ => ['t']) true
        ⟨[⟨['a'], ['a'], ['b']⟩, ⟨['c'], ['c'], ['d']⟩], [], [], true⟩).2.1.appended
      = [⟨['c'], ['d'], ['t']⟩] ∧
    (rename_files (fun fp _ => fp == ['c']) (fun _ => ['t']) true
        ⟨[⟨['a'], ['a'], ['b']⟩, ⟨['c'], ['c'], ['d']⟩], [], [], true⟩).2.2 = true :=
  ⟨((c6_rollback_log_iff_success (fun fp _ => fp == ['c']) (fun _ => ['t'])
      ⟨[⟨['a'], ['a'], ['b']⟩, ⟨['c'], ['c'], ['d']⟩], [], [], true⟩
      (by decide) rfl).1).trans (by decide),
   (c6_rollback_log_iff_success (fun fp _ => fp == ['c']) (fun _ => ['t'])
      ⟨[⟨['a'], ['a'], ['b']⟩, ⟨['c'], ['c'], ['d']⟩], [], [], true⟩
      (by decide) rfl).2.2.mpr ⟨⟨['c'], ['c'], ['d']⟩, by decide, by decide⟩⟩

/-- Claim C10: after a confirmed run completes, the plan and the collision
map are reset to empty and the Rename action is disabled, and running
`rename_files` again in the resulting state (with any filesystem, clock
and confirmation) changes nothing and attempts nothing. -/
theorem c10_state_reset_after_run (ok : Str → Str → Bool) (times : Nat → Str)
    (s : AppState) (hne : s.current_changes ≠ []) (hcoll : s.current_collisions = []) :
    (rename_files ok times true s).1.current_changes = [] ∧
    (rename_files ok times true s).1.current_collisions = [] ∧
    (rename_files ok times true s).1.renameEnabled = false ∧
    (∀ (ok2 : Str → Str → Bool) (times2 : Nat → Str) (confirm2 : Bool),
        rename_files ok2 times2 confirm2 (rename_files ok times true s).1
          = ((rename_files ok times true s).1, emptyRun, false)) := by
  rw [rename_files_run ok times s hne hcoll]
  exact ⟨rfl, rfl, rfl, fun ok2 times2 confirm2 => rfl⟩

theorem dropWhile_head_false {p : Char → Bool} :
    ∀ {l : Str} {d : Char} {t : Str}, l.dropWhile p = d :: t → p d = false := by
  intro l
  induction l with
  | nil => intro d t h; simp at h
  | cons c cs ih =>
      intro d t h
      rw [List.dropWhile_cons] at h
      by_cases hc : p c = true
      · rw [if_pos hc] at h
        exact ih h
      · rw [if_neg hc] at h
        injection h with h1 _
        subst h1
        cases hx : p c
        · rfl
        · exact absurd hx hc

theorem isEmpty_false_of_ne {t : Str} (h : t ≠ []) : t.isEmpty = false := by
  cases t
  · exact absurd rfl h
  · rfl

theorem replaceAllF_fuel (t r : Str) :
    ∀ (n : Nat) (s : Str), s.length ≤ n →
      ∀ f1 f2 : Nat, s.length ≤ f1 → s.length ≤ f2 →
        replaceAllF t r f1 s = replaceAllF t r f2 s := by
  intro n
  induction n with
  | zero =>
      intro s hs f1 f2 h1 h2
      cases s with
      | nil => cases f1 <;> cases f2 <;> rfl
      | cons c cs => simp at hs
  | succ m ihm =>
      intro s hs f1 f2 h1 h2
      cases s with
      | nil => cases f1 <;> cases f2 <;> rfl
      | cons c cs =>
          simp only [List.length_cons] at hs h1 h2
          obtain ⟨g1, rfl⟩ : ∃ g1, f1 = g1 + 1 := ⟨f1 - 1, by omega⟩
          obtain ⟨g2, rfl⟩ : ∃ g2, f2 = g2 + 1 := ⟨f2 - 1, by omega⟩
          simp only [replaceAllF]
          by_cases hb : (t.isPrefixOf (c :: cs) && !t.isEmpty) = true
          · rw [if_pos hb, if_pos hb]
            congr 1
            exact ihm (cs.drop (t.length - 1))
              (by simp only [List.length_drop]; omega) g1 g2
              (by simp only [List.length_drop]; omega)
              (by simp only [List.length_drop]; omega)
          · rw [if_neg hb, if_neg hb]
            congr 1
            exact ihm cs (by omega) g1 g2 (by omega) (by omega)

theorem replaceAll_cons (t r : Str) (c : Char) (cs : Str) :
    replaceAll t r (c :: cs) =
      if t.isPrefixOf (c :: cs) && !t.isEmpty then
        r ++ replaceAll t r (cs.drop (t.length - 1))
      else c :: replaceAll t r cs := by
  show replaceAllF t r (c :: cs).length (c :: cs) = _
  simp only [List.length_cons, replaceAllF]
  by_cases hb : (t.isPrefixOf (c :: cs) && !t.isEmpty) = true
  · rw [if_pos hb, if_pos hb]
    congr 1
    exact replaceAllF_fuel t r cs.length (cs.drop (t.length - 1))
      (by simp only [List.length_drop]; omega) cs.length
      (cs.drop (t.length - 1)).length
      (by simp only [List.length_drop]; omega) (le_refl _)
  · rw [if_neg hb, if_neg hb]
    rfl

theorem searchLit_iff (t s : Str) : searchLit t s = true ↔ t <:+: s := by
  induction s with
  | nil => simp [searchLit, List.isEmpty_iff, List.infix_nil]
  | cons c cs ih =>
      simp [searchLit, Bool.or_eq_true, List.isPrefixOf_iff_prefix, ih,
        List.infix_cons_iff]

theorem replaceAll_no_match (t r : Str) :
    ∀ s : Str, searchLit t s = false → replaceAll t r s = s := by
  intro s
  induction s with
  | nil => intro; rfl
  | cons c cs ih =>
      intro h
      rw [searchLit, Bool.or_eq_false_iff] at h
      rw [replaceAll_cons, h.1]
      simp [ih h.2]

theorem subLit_no_match (t r s : Str) (ht : t ≠ []) (h : searchLit t s = false) :
    subLit t r s = s := by
  unfold subLit
  rw [isEmpty_false_of_ne ht]
  simp only [Bool.false_eq_true, if_false]
  exact replaceAll_no_match t r s h

theorem subLit_head (t r rest : Str) (ht : t ≠ []) :
    subLit t r (t ++ rest) = r ++ subLit t r rest := by
  obtain ⟨x, xs, rfl⟩ : ∃ x xs, t = x :: xs := by
    cases t with
    | nil => exact absurd rfl ht
    | cons x xs => exact ⟨x, xs, rfl⟩
  unfold subLit
  simp only [List.isEmpty_cons, Bool.false_eq_true, if_false]
  rw [List.cons_append, replaceAll_cons]
  have hp : (x :: xs).isPrefixOf (x :: (xs ++ rest)) = true := by
    rw [List.isPrefixOf_iff_prefix]
    exact List.cons_append x xs rest ▸ List.prefix_append (x :: xs) rest
  rw [hp]
  simp only [List.isEmpty_cons, Bool.not_false, Bool.and_self, if_true,
    Bool.true_and]
  rw [show (x :: xs).length - 1 = xs.length by simp, List.drop_left]

theorem subLit_skip (t r : Str) (c : Char) (cs : Str) (ht : t ≠ [])
    (h : t.isPrefixOf (c :: cs) = false) :
    subLit t r (c :: cs) = c :: subLit t r cs := by
  unfold subLit
  rw [isEmpty_false_of_ne ht]
  simp only [Bool.false_eq_true, if_false]
  rw [replaceAll_cons, h]
  simp

theorem parseTemplate_no_backslash (t : Str) :
    ∀ repl : Str, '\\' ∉ repl → parseTemplate t repl = some repl := by
  intro repl
  induction repl with
  | nil => intro; rfl
  | cons c rest ih =>
      intro h
      rw [List.mem_cons] at h
      push_neg at h
      obtain ⟨h1, h2⟩ := h
      show parseTemplateF t (c :: rest).length (c :: rest) = some (c :: rest)
      simp only [List.length_cons, parseTemplateF]
      rw [if_neg (fun hh => h1 hh.symm)]
      have hrec : parseTemplateF t rest.length rest = some rest := ih h2
      rw [hrec]
      rfl

/-- Counterexample to Claim C8 as stated: the Replace Text replacement is
not inserted literally.  With search text `a`, replacement text `\n`
(backslash, n) and file `ab`, the program expands the replacement template
and plans the new name made of a newline followed by `b`; replacing the
occurrences of `a` literally by the two characters `\n` would instead
give `\nb`, a name the validity filter would reject for its backslash, so
the literal reading predicts an empty plan.  With replacement `\1` the
first `re.sub` call raises `re.error` (invalid group reference) and the
preview produces no plan at all. -/
theorem c8_counterexample_template_escape :
    planOf noopEngine Preset.replaceText ['a'] ['\\','n'] [['a','b']]
      = some [⟨['a','b'], ['a','b'], ['\n','b']⟩] ∧
    subLit ['a'] ['\\','n'] ['a','b'] = ['\\','n','b'] ∧
    (['\n','b'] : Str) ≠ ['\\','n','b'] ∧
    apply_regex (searchLit ['a']) (subLit ['a'] ['\\','n']) [['a','b']] = [] ∧
    planOf noopEngine Preset.replaceText ['a'] ['\\','1'] [['a','b']] = none := by
  decide

/-- Claim C8, amended: the Remove Text and Replace Text search text is
regex-escaped, so matching is literal — a name matches iff the stripped
search text occurs as a contiguous substring, a name without an occurrence
is left unchanged by the substitution, and occurrences are consumed left
to right without overlap.  The replacement, however, goes into `re.sub`
unescaped and is processed as a template: a backslash-free replacement is
inserted verbatim, so the Remove Text plan always, and the Replace Text
plan whenever the stripped replacement contains no backslash, is exactly
`apply_regex` under the literal semantics on the stripped inputs; when
the template is invalid and some file matches, `re.sub` raises `re.error`
and the preview produces no plan. -/
theorem c8_literal_text_presets :
    (∀ t s : Str, searchLit t s = true ↔ t <:+: s) ∧
    (∀ t r s : Str, t ≠ [] → searchLit t s = false → subLit t r s = s) ∧
    (∀ t r rest : Str, t ≠ [] → subLit t r (t ++ rest) = r ++ subLit t r rest) ∧
    (∀ (t r : Str) (c : Char) (cs : Str), t ≠ [] → t.isPrefixOf (c :: cs) = false →
        subLit t r (c :: cs) = c :: subLit t r cs) ∧
    (∀ t r : Str, '\\' ∉ r → parseTemplate t r = some r) ∧
    (∀ (E : RegexEngine) (in1 in2 : Str) (files : List Str),
        planOf E Preset.removeText in1 in2 files =
          some (apply_regex (searchLit (pyStrip in1)) (subLit (pyStrip in1) []) files) ∧
        ('\\' ∉ pyStrip in2 →
          planOf E Preset.replaceText in1 in2 files =
            some (apply_regex (searchLit (pyStrip in1))
              (subLit (pyStrip in1) (pyStrip in2)) files)) ∧
        (parseTemplate (pyStrip in1) (pyStrip in2) = none →
          (files.any (fun f => searchLit (pyStrip in1) (basename f))) = true →
          planOf E Preset.replaceText in1 in2 files = none)) := by
  refine ⟨searchLit_iff,
    fun t r s ht h => subLit_no_match t r s ht h,
    fun t r rest ht => subLit_head t r rest ht,
    fun t r c cs ht h => subLit_skip t r c cs ht h,
    fun t r h => parseTemplate_no_backslash t r h,
    fun E in1 in2 files => ⟨rfl, ?_, ?_⟩⟩
  · intro h
    have hp : parseTemplate (pyStrip in1) (pyStrip in2) = some (pyStrip in2) :=
      parseTemplate_no_backslash _ _ h
    simp [planOf, buildRule, hp]
  · intro hp hm
    simp [planOf, buildRule, hp, hm]

/-- Witness for C8 (amended): a leading occurrence is consumed, a text
without an occurrence is unchanged, a backslash-free template passes
through verbatim, a backslash-free Replace Text run plans the literal
substitution, and an invalid template yields no plan. -/
theorem c8_literal_text_presets_witness :
    subLit ['a','b'] ['x'] (['a','b'] ++ ['c']) = ['x'] ++ subLit ['a','b'] ['x'] ['c'] ∧
    subLit ['b'] ['x'] ['a','c'] = ['a','c'] ∧
    parseTemplate ['a'] ['x','y'] = some ['x','y'] ∧
    planOf noopEngine Preset.replaceText ['a'] ['y'] [['a','b']]
      = some (apply_regex (searchLit (pyStrip ['a']))
          (subLit (pyStrip ['a']) (pyStrip ['y'])) [['a','b']]) ∧
    planOf noopEngine Preset.replaceText ['a'] ['\\','2'] [['a','b']] = none :=
  ⟨c8_literal_text_presets.2.2.1 ['a','b'] ['x'] ['c'] (by decide),
   c8_literal_text_presets.2.1 ['b'] ['x'] ['a','c'] (by decide) (by decide),
   c8_literal_text_presets.2.2.2.2.1 ['a'] ['x','y'] (by decide),
   (c8_literal_text_presets.2.2.2.2.2 noopEngine ['a'] ['y'] [['a','b']]).2.1 (by decide),
   (c8_literal_text_presets.2.2.2.2.2 noopEngine ['a'] ['\\','2'] [['a','b']]).2.2
     (by decide) (by decide)⟩

/-- Counterexample to Claim C9 as stated: for the dotfile `.bashrc`,
"splitting at the last dot" gives stem `""` and extension `.bashrc`, so
the claim predicts the unchanged name `.bashrc`; Convert to Uppercase
actually produces `.BASHRC`, changing the text after the last dot. -/
theorem c9_counterexample_dotfile :
    caseNewName CaseMode.upper ".bashrc".data = ".BASHRC".data ∧
    splitAtLastDotNaive ".bashrc".data = ([], ".bashrc".data) ∧
    caseStem CaseMode.upper [] ++ (splitAtLastDotNaive ".bashrc".data).2 = ".bashrc".data ∧
    ".BASHRC".data ≠ ".bashrc".data := by
  decide

/-- Claim C9, amended: the case-conversion presets transform only the stem
and reattach the extension unchanged, where stem and extension are those
of `os.path.splitext` — the split is at the last dot only when a non-dot
character precedes it (a dotfile has no extension); the two parts
reassemble to the original name, and a non-empty extension starts with the
dot and contains no further dot. -/
theorem c9_case_splitext_frame (mode : CaseMode) (name : Str) :
    (splitext name).1 ++ (splitext name).2 = name ∧
    caseNewName mode name = caseStem mode (splitext name).1 ++ (splitext name).2 ∧
    ((splitext name).2 ≠ [] →
      (splitext name).2.head? = some '.' ∧
      ((splitext name).2.drop 1).all notDot = true) := by
  refine ⟨splitext_append name, caseNewName_eq mode name, ?_⟩
  intro hne
  cases hd : name.reverse.dropWhile notDot with
  | nil =>
      rw [splitext_eq_nil name hd] at hne
      exact absurd rfl hne
  | cons d preRev =>
      rw [splitext_eq_cons name d preRev hd] at hne ⊢
      by_cases hp : preRev.any notDot = true
      · rw [if_pos hp]
        have hdot : d = '.' := by
          have hd0 : notDot d = false := dropWhile_head_false hd
          simpa [notDot, bne_eq_false_iff_eq] using hd0
        constructor
        · simp [hdot]
        · simp only [List.drop_succ_cons, List.drop_zero, List.all_eq_true]
          intro x hx
          rw [List.mem_reverse] at hx
          exact List.mem_takeWhile_imp hx
      · rw [if_neg hp] at hne
        exact absurd rfl hne

/-- Witness for C9 (amended): for `a.txt` the extension is non-empty,
starts with the dot, and has no further dot. -/
theorem c9_case_splitext_frame_witness :
    (splitext "a.txt".data).2.head? = some '.' ∧
    ((splitext "a.txt".data).2.drop 1).all notDot = true :=
  (c9_case_splitext_frame CaseMode.upper "a.txt".data).2.2 (by decide)

/-- Witness for C10: a concrete confirmed run resets the plan, and a
second call does nothing. -/
theorem c10_state_reset_after_run_witness :
    (rename_files (fun _ _ => true) (fun _ => []) true
        ⟨[⟨['a'], ['a'], ['b']⟩], [], [], true⟩).1.current_changes = [] ∧
    rename_files (fun _ _ => false) (fun _ => []) true
        (rename_files (fun _ _ => true) (fun _ => []) true
          ⟨[⟨['a'], ['a'], ['b']⟩], [], [], true⟩).1
      = ((rename_files (fun _ _ => true) (fun _ => []) true
          ⟨[⟨['a'], ['a'], ['b']⟩], [], [], true⟩).1, emptyRun, false) :=
  ⟨(c10_state_reset_after_run (fun _ _ => true) (fun _ => [])
      ⟨[⟨['a'], ['a'], ['b']⟩], [], [], true⟩ (by decide) rfl).1,
   (c10_state_reset_after_run (fun _ _ => true) (fun _ => [])
      ⟨[⟨['a'], ['a'], ['b']⟩], [], [], true⟩ (by decide) rfl).2.2.2
      (fun _ _ => false) (fun _ => []) true⟩

end FileRenamer
